import Mathlib

/-!
Verification of the renter memory manager (`memory.go`): a priority-aware
memory admission controller with two FIFO wait queues, a priority reserve,
oversized-borrow underflow accounting, and a periodic GC trigger.

The embedding models the controller state as a structure of natural numbers
and queues of requested amounts (a queued waiter is fully described by the
amount it asks for).  All scalar fields and amounts are `uint64` in the
source; Go unsigned arithmetic wraps modulo `2^64`, so every addition and
subtraction the source performs is embedded through the wrapping operations
`wadd`/`wsub` below (natural numbers reduced mod `2^64`), never through
unbounded arithmetic.  Comparisons are direct, as in Go.

Concurrency, the mutex, the `blocking` channel and the `stop` channel are
not modelled: every operation runs atomically under the lock in the source,
so the sequential state-transformer semantics below is faithful to the
lock-protected state.  `Request` returns `true` exactly when the source
grants memory immediately (without enqueueing); a request that enqueues is
represented by the state with the waiter appended, its eventual release
being performed by later `Return` calls (the drain loops).

External effects of `Return` (the manual GC run and the `build.Critical`
report) are modelled as output flags, and the waiters released by the drain
loops are reported as output lists, so that theorems can speak about them
without polluting the controller state.
-/

/-- The `uint64` modulus: Go unsigned arithmetic wraps modulo `2^64`. -/
def W : Nat := 2 ^ 64

/-- Wrapping `uint64` addition: `x + y` reduced modulo `2^64`. -/
def wadd (x y : Nat) : Nat := (x + y) % W

/-- Wrapping `uint64` subtraction: for `x, y < 2^64` this is Go's `x - y`
(equal to `x - y` when `y ≤ x` and to `x + 2^64 - y` otherwise). -/
def wsub (x y : Nat) : Nat := (x + W - y % W) % W

/-- Waiter priority classes, `memoryPriorityLow` in the source. -/
def memoryPriorityLow : Bool := false

/-- Waiter priority classes, `memoryPriorityHigh` in the source. -/
def memoryPriorityHigh : Bool := true

/-- Modelled from the spec: the GC threshold constant `defaultMemory` is
defined outside the extracted source (the spec calls it "the process-wide
default working-set-per-job constant").  Its concrete value is irrelevant to
every claim below; we fix a representative `uint64` value. -/
def defaultMemory : Nat := 2 ^ 29

/-- The controller state: the five scalar fields of `memoryManager` plus the
two wait queues, each queue holding the `amount` fields of its queued
`memoryRequest` waiters in FIFO order (head = front).  Source values are all
`uint64` (below `2^64`); the operations only ever store reduced values. -/
@[ext] structure MemoryManager where
  available : Nat
  base : Nat
  memSinceGC : Nat
  priorityReserve : Nat
  underflow : Nat
  fifo : List Nat
  priorityFifo : List Nat
  deriving DecidableEq

/-- `memoryManager.try` from the source (named `tryAlloc` here because `try`
is a Lean keyword): attempts to take `amount` bytes, returning the updated
state on success and `none` on failure (the source returns `false` and
mutates nothing).  The sum `amount + priorityReserve` and the two
subtractions wrap modulo `2^64` exactly as the `uint64` arithmetic of
lines 69-82 of the source does. -/
def MemoryManager.tryAlloc (mm : MemoryManager) (amount : Nat) (priority : Bool) :
    Option MemoryManager :=
  if mm.available ≥ wadd amount mm.priorityReserve ∨
      (priority = true ∧ mm.available ≥ amount) then
    some { mm with available := wsub mm.available amount }
  else if mm.available = mm.base ∧ amount ≥ mm.available then
    some { mm with available := 0, underflow := wsub amount mm.base }
  else
    none

/-- Appending a new waiter to the back of the queue of its class
(lines 101-109 of `memoryManager.Request`). -/
def MemoryManager.enqueue (mm : MemoryManager) (amount : Nat) (priority : Bool) :
    MemoryManager :=
  if priority = true then { mm with priorityFifo := mm.priorityFifo ++ [amount] }
  else { mm with fifo := mm.fifo ++ [amount] }

/-- `memoryManager.Request`.  The boolean is `true` exactly when the source
returns `true` immediately (the fast path); otherwise the request joins the
queue of its class and the caller blocks, which we model by returning the
state with the waiter enqueued. -/
def MemoryManager.Request (mm : MemoryManager) (amount : Nat) (priority : Bool) :
    Bool × MemoryManager :=
  if mm.priorityFifo = [] ∧ (priority = memoryPriorityHigh ∨ mm.fifo = []) then
    match mm.tryAlloc amount priority with
    | some mm1 => (true, mm1)
    | none => (false, mm.enqueue amount priority)
  else
    (false, mm.enqueue amount priority)

/-- One drain loop of `memoryManager.Return`: repeatedly `tryAlloc` the head
of the queue `q` with the given priority class, releasing (popping) admitted
heads, stopping at the first head that cannot be admitted.  Returns the final
state, the remaining queue, and the list of released amounts in order. -/
def drain (mm : MemoryManager) (q : List Nat) (priority : Bool) :
    MemoryManager × List Nat × List Nat :=
  match q with
  | [] => (mm, [], [])
  | a :: rest =>
    match mm.tryAlloc a priority with
    | none => (mm, a :: rest, [])
    | some mm1 =>
      let r := drain mm1 rest priority
      (r.1, r.2.1, a :: r.2.2)

/-- Lines 167-191 of `memoryManager.Return`: drain the priority queue first;
if its head gets stuck the function returns without considering the normal
queue, otherwise (priority queue emptied) drain the normal queue.  Returns
the final state, the released priority amounts and the released normal
amounts. -/
def drainPhase (mm : MemoryManager) : MemoryManager × List Nat × List Nat :=
  let dp := drain mm mm.priorityFifo memoryPriorityHigh
  let mmp := { dp.1 with priorityFifo := dp.2.1 }
  if dp.2.1 = [] then
    let dn := drain mmp mmp.fifo memoryPriorityLow
    ({ dn.1 with fifo := dn.2.1 }, dp.2.2, dn.2.2)
  else
    (mmp, dp.2.2, [])

/-- The result of a `Return` call: the new state, whether the manual GC was
run, whether `build.Critical` was reported (the over-return clamp), and the
amounts of the waiters released from each queue, in release order. -/
structure ReturnResult where
  state : MemoryManager
  gcTriggered : Bool
  critical : Bool
  releasedPriority : List Nat
  releasedNormal : List Nat
  deriving DecidableEq

/-- `memoryManager.Return`: bump the GC counter (running GC and resetting it
when it exceeds `defaultMemory`), pay down underflow (stopping early when the
whole amount is consumed by the debt), add the remainder to `available`,
clamp to `base` reporting a critical violation on over-return, then drain the
queues priority-first.  `memSinceGC += amount`, `underflow -= amount`,
`amount -= underflow` and `available += amount` are `uint64` operations in
the source and wrap modulo `2^64` here. -/
def MemoryManager.Return (mm : MemoryManager) (amount : Nat) : ReturnResult :=
  let gcCount := wadd mm.memSinceGC amount
  let gcTriggered := decide (gcCount > defaultMemory)
  let mm1 := { mm with memSinceGC := if gcCount > defaultMemory then 0 else gcCount }
  if 0 < mm1.underflow ∧ amount ≤ mm1.underflow then
    { state := { mm1 with underflow := wsub mm1.underflow amount },
      gcTriggered := gcTriggered, critical := false,
      releasedPriority := [], releasedNormal := [] }
  else
    let amount2 := if 0 < mm1.underflow then wsub amount mm1.underflow else amount
    let mm2 := { mm1 with underflow := 0 }
    let avail := wadd mm2.available amount2
    let critical := decide (avail > mm2.base)
    let mm3 := { mm2 with available := if avail > mm2.base then mm2.base else avail }
    let d := drainPhase mm3
    { state := d.1, gcTriggered := gcTriggered, critical := critical,
      releasedPriority := d.2.1, releasedNormal := d.2.2 }

/-- `newMemoryManager`: the constructor performs no validation of its
arguments (the `stop` channel is not part of the modelled state). -/
def newMemoryManager (baseMemory : Nat) (priorityMemory : Nat) : MemoryManager :=
  { available := baseMemory, base := baseMemory, memSinceGC := 0,
    priorityReserve := priorityMemory, underflow := 0,
    fifo := [], priorityFifo := [] }

/-- The controller state as it stands right before the drain loops of
`Return` on the add-and-drain path (GC counter updated, underflow paid off,
remainder added to `available` and clamped to `base`): an abbreviation used
to state lemmas about `Return`, with the same wrapping arithmetic. -/
def MemoryManager.afterPay (mm : MemoryManager) (amount : Nat) : MemoryManager :=
  { mm with
    memSinceGC :=
      if wadd mm.memSinceGC amount > defaultMemory then 0
      else wadd mm.memSinceGC amount,
    underflow := 0,
    available :=
      if wadd mm.available
          (if 0 < mm.underflow then wsub amount mm.underflow else amount) >
          mm.base then mm.base
      else wadd mm.available
        (if 0 < mm.underflow then wsub amount mm.underflow else amount) }

/-- An operation applied to the controller by its callers. -/
inductive Op
  | request (amount : Nat) (priority : Bool)
  | ret (amount : Nat)
  deriving DecidableEq

/-- The state transition of one operation. -/
def step (mm : MemoryManager) : Op → MemoryManager
  | Op.request a p => (mm.Request a p).2
  | Op.ret a => (mm.Return a).state

/-- Running a sequence of operations from a state. -/
def run (mm : MemoryManager) (ops : List Op) : MemoryManager :=
  ops.foldl step mm

/-- States reachable from a given constructor call by `Request`/`Return`. -/
def ReachableFrom (base reserve : Nat) (mm : MemoryManager) : Prop :=
  ∃ ops : List Op, mm = run (newMemoryManager base reserve) ops

/-- States reachable from some constructor call. -/
def Reachable (mm : MemoryManager) : Prop :=
  ∃ base reserve : Nat, ReachableFrom base reserve mm

/-- An operation whose `uint64` arithmetic does not overflow in the given
state: a request's `amount + priorityReserve` stays below `2^64`, and a
return's counter bump and pool addition stay below `2^64`. -/
def safeOp (mm : MemoryManager) : Op → Bool
  | Op.request a _ => decide (a + mm.priorityReserve < W)
  | Op.ret a => decide (mm.memSinceGC + a < W) && decide (mm.available + a < W)

/-- A whole operation sequence is overflow-safe when every step is. -/
def safeTrace : MemoryManager → List Op → Bool
  | _, [] => true
  | mm, o :: ops => safeOp mm o && safeTrace (step mm o) ops

/-- States reachable from a given constructor call (representable arguments)
by an overflow-safe operation sequence. -/
def SafeReachableFrom (base reserve : Nat) (mm : MemoryManager) : Prop :=
  base < W ∧ reserve < W ∧
  ∃ ops : List Op, safeTrace (newMemoryManager base reserve) ops = true ∧
    mm = run (newMemoryManager base reserve) ops

/-- States reachable from some constructor call by an overflow-safe
operation sequence. -/
def SafeReachable (mm : MemoryManager) : Prop :=
  ∃ base reserve : Nat, SafeReachableFrom base reserve mm

/-- The inductive state invariant maintained along overflow-safe executions:
`available` never exceeds `base`; a positive underflow forces
`available = 0`; when the priority queue is empty the head of the normal
queue is never admissible (it was enqueued, or left in place by a drain,
exactly because `tryAlloc` failed on it); and all scalars and queued amounts
are representable with non-overflowing reserve sums. -/
structure StateInv (mm : MemoryManager) : Prop where
  avail_le : mm.available ≤ mm.base
  uf_avail : 0 < mm.underflow → mm.available = 0
  head_fail : ∀ a rest, mm.priorityFifo = [] → mm.fifo = a :: rest →
    mm.tryAlloc a memoryPriorityLow = none
  base_lt : mm.base < W
  res_lt : mm.priorityReserve < W
  uf_lt : mm.underflow < W
  fifo_bound : ∀ a ∈ mm.fifo, a + mm.priorityReserve < W
  pfifo_bound : ∀ a ∈ mm.priorityFifo, a + mm.priorityReserve < W

/-! ### Wrapping-arithmetic lemmas -/

theorem W_pos : 0 < W := by norm_num [W]

theorem wadd_lt (x y : Nat) : wadd x y < W := Nat.mod_lt _ W_pos

theorem wsub_lt (x y : Nat) : wsub x y < W := Nat.mod_lt _ W_pos

theorem wadd_eq {x y : Nat} (h : x + y < W) : wadd x y = x + y :=
  Nat.mod_eq_of_lt h

theorem wsub_eq_of_sub_lt {x y : Nat} (hy : y < W) (hyx : y ≤ x)
    (h : x - y < W) : wsub x y = x - y := by
  unfold wsub
  rw [Nat.mod_eq_of_lt hy]
  have h2 : x + W - y = W + (x - y) := by omega
  rw [h2, Nat.add_mod_left]
  exact Nat.mod_eq_of_lt h

theorem wsub_eq {x y : Nat} (hx : x < W) (hyx : y ≤ x) : wsub x y = x - y :=
  wsub_eq_of_sub_lt (by omega) hyx (by omega)

theorem wsub_self (x : Nat) : wsub x x = 0 := by
  unfold wsub W
  omega

theorem wsub_zero {x : Nat} (hx : x < W) : wsub x 0 = x := by
  unfold wsub
  rw [Nat.zero_mod, Nat.sub_zero, Nat.add_mod_right]
  exact Nat.mod_eq_of_lt hx

/-! ### Helper lemmas about `tryAlloc` -/

theorem tryAlloc_nowrap (mm : MemoryManager) (a : Nat) (p : Bool)
    (hav : mm.available < W) (hsum : a + mm.priorityReserve < W) :
    mm.tryAlloc a p =
      (if mm.available ≥ a + mm.priorityReserve ∨
          (p = true ∧ mm.available ≥ a) then
        some { mm with available := mm.available - a }
      else if mm.available = mm.base ∧ a ≥ mm.available then
        some { mm with available := 0, underflow := a - mm.base }
      else none) := by
  unfold MemoryManager.tryAlloc
  rw [wadd_eq hsum]
  split_ifs with h1 h2
  · have hle : a ≤ mm.available := by
      rcases h1 with h | h
      · omega
      · exact h.2
    rw [wsub_eq hav hle]
  · rw [wsub_eq (by omega) (by omega)]
  · rfl

theorem tryAlloc_some_fields {mm mm' : MemoryManager} {a : Nat} {p : Bool}
    (h : mm.tryAlloc a p = some mm') :
    mm'.base = mm.base ∧ mm'.priorityReserve = mm.priorityReserve ∧
    mm'.memSinceGC = mm.memSinceGC ∧ mm'.fifo = mm.fifo ∧
    mm'.priorityFifo = mm.priorityFifo := by
  unfold MemoryManager.tryAlloc at h
  split_ifs at h <;> cases h <;> simp

theorem tryAlloc_some_avail_le {mm mm' : MemoryManager} {a : Nat} {p : Bool}
    (hav : mm.available < W) (hsum : a + mm.priorityReserve < W)
    (h : mm.tryAlloc a p = some mm') : mm'.available ≤ mm.available := by
  rw [tryAlloc_nowrap mm a p hav hsum] at h
  split_ifs at h <;> cases h <;> simp <;> omega

theorem tryAlloc_some_inv {mm mm' : MemoryManager} {a : Nat} {p : Bool}
    (h : mm.tryAlloc a p = some mm')
    (h1 : mm.available ≤ mm.base) (h2 : 0 < mm.underflow → mm.available = 0)
    (hb : mm.base < W) (hu : mm.underflow < W)
    (hsum : a + mm.priorityReserve < W) :
    mm'.available ≤ mm'.base ∧ (0 < mm'.underflow → mm'.available = 0) ∧
    mm'.underflow < W := by
  rw [tryAlloc_nowrap mm a p (by omega) hsum] at h
  split_ifs at h <;> cases h <;> simp <;> omega

theorem tryAlloc_none_iff {mm : MemoryManager} {a : Nat} {p : Bool} :
    mm.tryAlloc a p = none ↔
      ¬(wadd a mm.priorityReserve ≤ mm.available ∨
        (p = true ∧ a ≤ mm.available)) ∧
      ¬(mm.available = mm.base ∧ mm.available ≤ a) := by
  unfold MemoryManager.tryAlloc
  split_ifs with h1 h2 <;> simp_all [ge_iff_le] <;> omega

theorem tryAlloc_congr_none (mmA : MemoryManager) {mmB : MemoryManager}
    {a : Nat} {p : Bool}
    (hav : mmB.available = mmA.available) (hb : mmB.base = mmA.base)
    (hr : mmB.priorityReserve = mmA.priorityReserve) :
    mmB.tryAlloc a p = none ↔ mmA.tryAlloc a p = none := by
  rw [tryAlloc_none_iff, tryAlloc_none_iff, hav, hb, hr]

theorem tryAlloc_none_mono {mmA mmB : MemoryManager} {a : Nat}
    (h : mmA.tryAlloc a memoryPriorityLow = none)
    (h1 : mmA.available ≤ mmA.base) (hbW : mmA.base < W)
    (hsum : a + mmA.priorityReserve < W)
    (hav : mmB.available ≤ mmA.available) (hb : mmB.base = mmA.base)
    (hr : mmB.priorityReserve = mmA.priorityReserve) :
    mmB.tryAlloc a memoryPriorityLow = none := by
  rw [tryAlloc_none_iff] at h ⊢
  rw [hb, hr]
  rw [wadd_eq hsum] at h ⊢
  simp only [memoryPriorityLow] at h ⊢
  constructor
  · intro hc
    rcases hc with hc | hc
    · exact h.1 (Or.inl (by omega))
    · exact absurd hc.1 (by simp)
  · intro hc
    have hEq : mmA.available = mmA.base := by omega
    exact h.2 ⟨hEq, by omega⟩

/-! ### Helper lemmas about `drain` -/

theorem drain_fields (q : List Nat) (mm : MemoryManager) (p : Bool) :
    (drain mm q p).1.base = mm.base ∧
    (drain mm q p).1.priorityReserve = mm.priorityReserve ∧
    (drain mm q p).1.memSinceGC = mm.memSinceGC ∧
    (drain mm q p).1.fifo = mm.fifo ∧
    (drain mm q p).1.priorityFifo = mm.priorityFifo := by
  induction q generalizing mm with
  | nil => simp [drain]
  | cons a rest ih =>
    unfold drain
    cases htry : mm.tryAlloc a p with
    | none => simp
    | some mm1 =>
      have hf := tryAlloc_some_fields htry
      have hr := ih mm1
      simp only []
      exact ⟨by rw [hr.1, hf.1], by rw [hr.2.1, hf.2.1], by rw [hr.2.2.1, hf.2.2.1],
        by rw [hr.2.2.2.1, hf.2.2.2.1], by rw [hr.2.2.2.2, hf.2.2.2.2]⟩

theorem drain_rem_sub (q : List Nat) (mm : MemoryManager) (p : Bool) :
    ∀ a ∈ (drain mm q p).2.1, a ∈ q := by
  induction q generalizing mm with
  | nil => simp [drain]
  | cons b rest ih =>
    unfold drain
    cases htry : mm.tryAlloc b p with
    | none => simp
    | some mm1 =>
      intro a ha
      simp only [] at ha
      exact List.mem_cons_of_mem b (ih mm1 a ha)

theorem drain_inv (q : List Nat) (mm : MemoryManager) (p : Bool)
    (hq : ∀ a ∈ q, a + mm.priorityReserve < W)
    (h1 : mm.available ≤ mm.base) (h2 : 0 < mm.underflow → mm.available = 0)
    (hb : mm.base < W) (hu : mm.underflow < W) :
    (drain mm q p).1.available ≤ (drain mm q p).1.base ∧
    (0 < (drain mm q p).1.underflow → (drain mm q p).1.available = 0) ∧
    (drain mm q p).1.underflow < W := by
  induction q generalizing mm with
  | nil =>
    simp [drain]
    exact ⟨h1, h2, hu⟩
  | cons a rest ih =>
    unfold drain
    cases htry : mm.tryAlloc a p with
    | none =>
      simp
      exact ⟨h1, h2, hu⟩
    | some mm1 =>
      have hsum : a + mm.priorityReserve < W := hq a (by simp)
      have hi := tryAlloc_some_inv htry h1 h2 hb hu hsum
      have hf := tryAlloc_some_fields htry
      have hq1 : ∀ b ∈ rest, b + mm1.priorityReserve < W := by
        intro b hbm
        rw [hf.2.1]
        exact hq b (by simp [hbm])
      simpa using ih mm1 hq1 hi.1 hi.2.1 (hf.1 ▸ hb) hi.2.2

theorem drain_stuck (q : List Nat) (mm : MemoryManager) (p : Bool) (a : Nat)
    (rest : List Nat) (h : (drain mm q p).2.1 = a :: rest) :
    (drain mm q p).1.tryAlloc a p = none := by
  induction q generalizing mm with
  | nil => simp [drain] at h
  | cons b q1 ih =>
    unfold drain at h ⊢
    cases htry : mm.tryAlloc b p with
    | none =>
      simp [htry] at h ⊢
      rw [← h.1]
      exact htry
    | some mm1 =>
      simp [htry] at h ⊢
      exact ih mm1 h

/-! ### Helper lemmas about `drainPhase` -/

theorem drainPhase_stuck_eq (mm : MemoryManager)
    (hne : (drain mm mm.priorityFifo memoryPriorityHigh).2.1 ≠ []) :
    drainPhase mm =
      ({ (drain mm mm.priorityFifo memoryPriorityHigh).1 with
          priorityFifo := (drain mm mm.priorityFifo memoryPriorityHigh).2.1 },
        (drain mm mm.priorityFifo memoryPriorityHigh).2.2, []) := by
  simp only [drainPhase]
  rw [if_neg hne]

theorem drainPhase_empty_eq (mm : MemoryManager)
    (he : (drain mm mm.priorityFifo memoryPriorityHigh).2.1 = []) :
    drainPhase mm =
      ({ (drain { (drain mm mm.priorityFifo memoryPriorityHigh).1 with
            priorityFifo := [] }
            (drain mm mm.priorityFifo memoryPriorityHigh).1.fifo
            memoryPriorityLow).1 with
          fifo := (drain { (drain mm mm.priorityFifo memoryPriorityHigh).1 with
            priorityFifo := [] }
            (drain mm mm.priorityFifo memoryPriorityHigh).1.fifo
            memoryPriorityLow).2.1 },
        (drain mm mm.priorityFifo memoryPriorityHigh).2.2,
        (drain { (drain mm mm.priorityFifo memoryPriorityHigh).1 with
            priorityFifo := [] }
            (drain mm mm.priorityFifo memoryPriorityHigh).1.fifo
            memoryPriorityLow).2.2) := by
  simp only [drainPhase]
  rw [if_pos he, he]

theorem drainPhase_fields (mm : MemoryManager) :
    (drainPhase mm).1.base = mm.base ∧
    (drainPhase mm).1.priorityReserve = mm.priorityReserve ∧
    (drainPhase mm).1.memSinceGC = mm.memSinceGC := by
  have hp := drain_fields mm.priorityFifo mm memoryPriorityHigh
  by_cases he : (drain mm mm.priorityFifo memoryPriorityHigh).2.1 = []
  · rw [drainPhase_empty_eq mm he]
    have hnf := drain_fields (drain mm mm.priorityFifo memoryPriorityHigh).1.fifo
      { (drain mm mm.priorityFifo memoryPriorityHigh).1 with priorityFifo := [] }
      memoryPriorityLow
    refine ⟨?_, ?_, ?_⟩ <;> simp_all
  · rw [drainPhase_stuck_eq mm he]
    refine ⟨?_, ?_, ?_⟩ <;> simp_all

theorem drainPhase_inv (mm : MemoryManager)
    (h1 : mm.available ≤ mm.base) (h2 : 0 < mm.underflow → mm.available = 0)
    (hb : mm.base < W) (hres : mm.priorityReserve < W) (hu : mm.underflow < W)
    (hfb : ∀ a ∈ mm.fifo, a + mm.priorityReserve < W)
    (hpb : ∀ a ∈ mm.priorityFifo, a + mm.priorityReserve < W) :
    StateInv (drainPhase mm).1 := by
  have hpfld := drain_fields mm.priorityFifo mm memoryPriorityHigh
  have hpinv := drain_inv mm.priorityFifo mm memoryPriorityHigh hpb h1 h2 hb hu
  by_cases he : (drain mm mm.priorityFifo memoryPriorityHigh).2.1 = []
  · rw [drainPhase_empty_eq mm he]
    have hnf := drain_fields (drain mm mm.priorityFifo memoryPriorityHigh).1.fifo
      { (drain mm mm.priorityFifo memoryPriorityHigh).1 with priorityFifo := [] }
      memoryPriorityLow
    have hq2 : ∀ a ∈ ({ (drain mm mm.priorityFifo memoryPriorityHigh).1 with
        priorityFifo := ([] : List Nat) } : MemoryManager).fifo,
        a + ({ (drain mm mm.priorityFifo memoryPriorityHigh).1 with
        priorityFifo := ([] : List Nat) } : MemoryManager).priorityReserve < W := by
      intro a ham
      simp only [] at ham ⊢
      rw [hpfld.2.1]
      exact hfb a (hpfld.2.2.2.1 ▸ ham)
    have hni := drain_inv (drain mm mm.priorityFifo memoryPriorityHigh).1.fifo
      { (drain mm mm.priorityFifo memoryPriorityHigh).1 with priorityFifo := [] }
      memoryPriorityLow hq2 (by simpa using hpinv.1) (by simpa using hpinv.2.1)
      (by simpa [hpfld.1] using hb) (by simpa using hpinv.2.2)
    have hsub := drain_rem_sub
      (drain mm mm.priorityFifo memoryPriorityHigh).1.fifo
      { (drain mm mm.priorityFifo memoryPriorityHigh).1 with priorityFifo := [] }
      memoryPriorityLow
    refine ⟨by simp_all, by simp_all, ?_, ?_, ?_, ?_, ?_, ?_⟩
    · intro a rest hpq hfq
      simp only [] at hpq
      simp at hfq
      have hstuck := drain_stuck
        (drain mm mm.priorityFifo memoryPriorityHigh).1.fifo
        { (drain mm mm.priorityFifo memoryPriorityHigh).1 with priorityFifo := [] }
        memoryPriorityLow a rest hfq
      rw [tryAlloc_congr_none
        (drain { (drain mm mm.priorityFifo memoryPriorityHigh).1 with
          priorityFifo := [] }
          (drain mm mm.priorityFifo memoryPriorityHigh).1.fifo
          memoryPriorityLow).1 (by simp) (by simp) (by simp)]
      exact hstuck
    · simp only []
      rw [hnf.1]
      simpa [hpfld.1] using hb
    · simp only []
      rw [hnf.2.1]
      simpa [hpfld.2.1] using hres
    · simp only []
      exact hni.2.2
    · intro a ham
      simp only [] at ham ⊢
      rw [hnf.2.1]
      simp only []
      rw [hpfld.2.1]
      have ham2 := hsub a ham
      simp only [] at ham2
      exact hfb a (hpfld.2.2.2.1 ▸ ham2)
    · intro a ham
      simp only [] at ham
      rw [hnf.2.2.2.2] at ham
      simp at ham
  · rw [drainPhase_stuck_eq mm he]
    have hsubp := drain_rem_sub mm.priorityFifo mm memoryPriorityHigh
    refine ⟨by simp_all, by simp_all, ?_, ?_, ?_, ?_, ?_, ?_⟩
    · intro a rest hpq _
      simp only [] at hpq
      exact absurd hpq he
    · simp only []
      rw [hpfld.1]
      exact hb
    · simp only []
      rw [hpfld.2.1]
      exact hres
    · simp only []
      exact hpinv.2.2
    · intro a ham
      simp only [] at ham ⊢
      rw [hpfld.2.1]
      exact hfb a (hpfld.2.2.2.1 ▸ ham)
    · intro a ham
      simp only [] at ham ⊢
      rw [hpfld.2.1]
      exact hpb a (hsubp a ham)

/-! ### Helper lemmas about `Request` and `Return` -/

theorem Return_pay_eq (mm : MemoryManager) (n : Nat)
    (hc : 0 < mm.underflow ∧ n ≤ mm.underflow) :
    mm.Return n =
      { state := { mm with
          memSinceGC :=
            if wadd mm.memSinceGC n > defaultMemory then 0
            else wadd mm.memSinceGC n,
          underflow := wsub mm.underflow n },
        gcTriggered := decide (wadd mm.memSinceGC n > defaultMemory),
        critical := false, releasedPriority := [], releasedNormal := [] } := by
  simp only [MemoryManager.Return]
  rw [if_pos hc]

theorem Return_add_eq (mm : MemoryManager) (n : Nat)
    (hc : ¬(0 < mm.underflow ∧ n ≤ mm.underflow)) :
    mm.Return n =
      { state := (drainPhase (mm.afterPay n)).1,
        gcTriggered := decide (wadd mm.memSinceGC n > defaultMemory),
        critical := decide (wadd mm.available
          (if 0 < mm.underflow then wsub n mm.underflow else n) > mm.base),
        releasedPriority := (drainPhase (mm.afterPay n)).2.1,
        releasedNormal := (drainPhase (mm.afterPay n)).2.2 } := by
  simp only [MemoryManager.Return, MemoryManager.afterPay]
  rw [if_neg hc]

theorem Request_fields (mm : MemoryManager) (n : Nat) (p : Bool) :
    (mm.Request n p).2.base = mm.base ∧
    (mm.Request n p).2.priorityReserve = mm.priorityReserve := by
  unfold MemoryManager.Request
  split_ifs with hel
  · cases htry : mm.tryAlloc n p with
    | none => unfold MemoryManager.enqueue; split_ifs <;> simp
    | some mm1 =>
      have hf := tryAlloc_some_fields htry
      simp [hf.1, hf.2.1]
  · unfold MemoryManager.enqueue; split_ifs <;> simp

theorem Return_fields (mm : MemoryManager) (n : Nat) :
    (mm.Return n).state.base = mm.base ∧
    (mm.Return n).state.priorityReserve = mm.priorityReserve := by
  by_cases hc : 0 < mm.underflow ∧ n ≤ mm.underflow
  · rw [Return_pay_eq mm n hc]; simp
  · rw [Return_add_eq mm n hc]
    have h := drainPhase_fields (mm.afterPay n)
    refine ⟨?_, ?_⟩
    · rw [h.1]; simp [MemoryManager.afterPay]
    · rw [h.2.1]; simp [MemoryManager.afterPay]

theorem Request_inv (mm : MemoryManager) (n : Nat) (p : Bool)
    (hsafe : n + mm.priorityReserve < W) (h : StateInv mm) :
    StateInv (mm.Request n p).2 := by
  obtain ⟨h1, h2, h3, hb, hres, hu, hfb, hpb⟩ := h
  unfold MemoryManager.Request
  split_ifs with hel
  · obtain ⟨hpe, hor⟩ := hel
    cases htry : mm.tryAlloc n p with
    | some mm1 =>
      simp only []
      have hf := tryAlloc_some_fields htry
      have hi := tryAlloc_some_inv htry h1 h2 hb hu hsafe
      refine ⟨hi.1, hi.2.1, ?_, hf.1 ▸ hb, hf.2.1 ▸ hres, hi.2.2, ?_, ?_⟩
      · intro a rest hpq hfq
        rw [hf.2.2.2.1] at hfq
        have hnone := h3 a rest hpe hfq
        have hsum_a : a + mm.priorityReserve < W := hfb a (by rw [hfq]; simp)
        exact tryAlloc_none_mono hnone h1 hb hsum_a
          (tryAlloc_some_avail_le (by omega) hsafe htry) hf.1 hf.2.1
      · intro a ham
        rw [hf.2.2.2.1] at ham
        rw [hf.2.1]
        exact hfb a ham
      · intro a ham
        rw [hf.2.2.2.2] at ham
        rw [hf.2.1]
        exact hpb a ham
    | none =>
      simp only []
      unfold MemoryManager.enqueue
      split_ifs with hp
      · refine ⟨h1, h2, ?_, hb, hres, hu, hfb, ?_⟩
        · intro a rest hpq _
          simp at hpq
        · intro a ham
          simp only [] at ham ⊢
          rcases List.mem_append.1 ham with hm | hm
          · exact hpb a hm
          · simp at hm
            exact hm ▸ hsafe
      · refine ⟨h1, h2, ?_, hb, hres, hu, ?_, hpb⟩
        · intro a rest hpq hfq
          simp only [] at hpq hfq
          rw [tryAlloc_congr_none mm (by simp) (by simp) (by simp)]
          simp at hp
          cases hfo : mm.fifo with
          | nil =>
            rw [hfo] at hfq
            simp only [List.nil_append] at hfq
            injection hfq with hna _
            rw [← hna]
            simp only [memoryPriorityLow]
            rw [hp] at htry
            exact htry
          | cons b r =>
            rw [hfo] at hfq
            simp only [List.cons_append] at hfq
            injection hfq with hba _
            rw [← hba]
            exact h3 b r hpq hfo
        · intro a ham
          simp only [] at ham ⊢
          rcases List.mem_append.1 ham with hm | hm
          · exact hfb a hm
          · simp at hm
            exact hm ▸ hsafe
  · unfold MemoryManager.enqueue
    split_ifs with hp
    · refine ⟨h1, h2, ?_, hb, hres, hu, hfb, ?_⟩
      · intro a rest hpq _
        simp at hpq
      · intro a ham
        simp only [] at ham ⊢
        rcases List.mem_append.1 ham with hm | hm
        · exact hpb a hm
        · simp at hm
          exact hm ▸ hsafe
    · refine ⟨h1, h2, ?_, hb, hres, hu, ?_, hpb⟩
      · intro a rest hpq hfq
        simp only [] at hpq hfq
        push_neg at hel
        simp at hp
        have hfne : mm.fifo ≠ [] := by
          intro hfo
          have hne := hel hpq
          simp [memoryPriorityHigh, hfo, hp] at hne
        cases hfo : mm.fifo with
        | nil => exact absurd hfo hfne
        | cons b r =>
          rw [hfo] at hfq
          simp only [List.cons_append] at hfq
          injection hfq with hba _
          rw [tryAlloc_congr_none mm (by simp) (by simp) (by simp)]
          rw [← hba]
          exact h3 b r hpq hfo
      · intro a ham
        simp only [] at ham ⊢
        rcases List.mem_append.1 ham with hm | hm
        · exact hfb a hm
        · simp at hm
          exact hm ▸ hsafe

theorem Return_inv (mm : MemoryManager) (n : Nat)
    (hsafe : mm.available + n < W) (h : StateInv mm) :
    StateInv (mm.Return n).state := by
  obtain ⟨h1, h2, h3, hb, hres, hu, hfb, hpb⟩ := h
  by_cases hc : 0 < mm.underflow ∧ n ≤ mm.underflow
  · rw [Return_pay_eq mm n hc]
    have husub : wsub mm.underflow n = mm.underflow - n := wsub_eq hu hc.2
    refine ⟨by simpa using h1, ?_, ?_, by simpa using hb, by simpa using hres,
      ?_, ?_, ?_⟩
    · intro hpos
      replace hpos : 0 < wsub mm.underflow n := hpos
      rw [husub] at hpos
      exact h2 (by omega)
    · intro a rest hpq hfq
      simp only [] at hpq hfq
      rw [tryAlloc_congr_none mm (by simp) (by simp) (by simp)]
      exact h3 a rest hpq hfq
    · exact wsub_lt mm.underflow n
    · intro a ham
      simp only [] at ham ⊢
      exact hfb a ham
    · intro a ham
      simp only [] at ham ⊢
      exact hpb a ham
  · rw [Return_add_eq mm n hc]
    apply drainPhase_inv (mm.afterPay n)
    · simp only [MemoryManager.afterPay]
      split_ifs <;> omega
    · simp [MemoryManager.afterPay]
    · simpa [MemoryManager.afterPay] using hb
    · simpa [MemoryManager.afterPay] using hres
    · simp only [MemoryManager.afterPay]
      exact W_pos
    · intro a ham
      simp only [MemoryManager.afterPay] at ham ⊢
      exact hfb a ham
    · intro a ham
      simp only [MemoryManager.afterPay] at ham ⊢
      exact hpb a ham

/-! ### Invariants along overflow-safe executions -/

theorem step_inv (mm : MemoryManager) (o : Op) (hs : safeOp mm o = true)
    (h : StateInv mm) : StateInv (step mm o) := by
  cases o with
  | request a p =>
    simp [safeOp] at hs
    exact Request_inv mm a p hs h
  | ret a =>
    simp [safeOp] at hs
    exact Return_inv mm a hs.2 h

theorem step_fields (mm : MemoryManager) (o : Op) :
    (step mm o).base = mm.base ∧ (step mm o).priorityReserve = mm.priorityReserve := by
  cases o with
  | request a p => exact Request_fields mm a p
  | ret a => exact Return_fields mm a

theorem safeRun_inv (ops : List Op) (mm : MemoryManager)
    (hs : safeTrace mm ops = true) (h : StateInv mm) : StateInv (run mm ops) := by
  induction ops generalizing mm with
  | nil => exact h
  | cons o rest ih =>
    simp only [safeTrace, Bool.and_eq_true] at hs
    exact ih (step mm o) hs.2 (step_inv mm o hs.1 h)

theorem run_fields (ops : List Op) (mm : MemoryManager) :
    (run mm ops).base = mm.base ∧ (run mm ops).priorityReserve = mm.priorityReserve := by
  induction ops generalizing mm with
  | nil => exact ⟨rfl, rfl⟩
  | cons o rest ih =>
    have hs := step_fields mm o
    have hr := ih (step mm o)
    exact ⟨hr.1.trans hs.1, hr.2.trans hs.2⟩

theorem newMemoryManager_inv (b r : Nat) (hbW : b < W) (hrW : r < W) :
    StateInv (newMemoryManager b r) := by
  refine ⟨by simp [newMemoryManager], by simp [newMemoryManager], ?_,
    hbW, hrW, W_pos, ?_, ?_⟩
  · intro a rest _ hfq
    simp [newMemoryManager] at hfq
  · intro a ham
    simp [newMemoryManager] at ham
  · intro a ham
    simp [newMemoryManager] at ham

theorem safeReachableFrom_props {b r : Nat} {mm : MemoryManager}
    (h : SafeReachableFrom b r mm) :
    StateInv mm ∧ mm.base = b ∧ mm.priorityReserve = r := by
  obtain ⟨hbW, hrW, ops, hst, rfl⟩ := h
  have hf := run_fields ops (newMemoryManager b r)
  refine ⟨safeRun_inv ops _ hst (newMemoryManager_inv b r hbW hrW), ?_, ?_⟩
  · rw [hf.1]; rfl
  · rw [hf.2]; rfl

theorem safeReachable_inv {mm : MemoryManager} (h : SafeReachable mm) :
    StateInv mm := by
  obtain ⟨b, r, hr⟩ := h
  exact (safeReachableFrom_props hr).1

theorem Request_true_elim (mm : MemoryManager) (n : Nat) (p : Bool)
    (hg : (mm.Request n p).1 = true) :
    mm.priorityFifo = [] ∧ (p = true ∨ mm.fifo = []) ∧
    mm.tryAlloc n p = some (mm.Request n p).2 := by
  have hel : mm.priorityFifo = [] ∧ (p = memoryPriorityHigh ∨ mm.fifo = []) := by
    by_contra hne
    unfold MemoryManager.Request at hg
    rw [if_neg hne] at hg
    simp at hg
  cases htry : mm.tryAlloc n p with
  | none =>
    exfalso
    unfold MemoryManager.Request at hg
    rw [if_pos hel, htry] at hg
    simp at hg
  | some mm1 =>
    refine ⟨hel.1, by simpa [memoryPriorityHigh] using hel.2, ?_⟩
    unfold MemoryManager.Request
    rw [if_pos hel, htry]

theorem Request_grant_eq (mm : MemoryManager) (n : Nat) (p : Bool)
    (mm1 : MemoryManager)
    (hel : mm.priorityFifo = [] ∧ (p = memoryPriorityHigh ∨ mm.fifo = []))
    (htry : mm.tryAlloc n p = some mm1) :
    mm.Request n p = (true, mm1) := by
  unfold MemoryManager.Request
  rw [if_pos hel, htry]

theorem Request_queue_eq (mm : MemoryManager) (n : Nat) (p : Bool)
    (h : ¬(mm.priorityFifo = [] ∧ (p = memoryPriorityHigh ∨ mm.fifo = [])) ∨
      mm.tryAlloc n p = none) :
    mm.Request n p = (false, mm.enqueue n p) := by
  unfold MemoryManager.Request
  rcases h with h | h
  · rw [if_neg h]
  · split_ifs with hel
    · rw [h]
    · rfl

theorem drainPhase_id (mm : MemoryManager) (hp : mm.priorityFifo = [])
    (hf : ∀ b rest, mm.fifo = b :: rest →
      mm.tryAlloc b memoryPriorityLow = none) :
    drainPhase mm = (mm, [], []) := by
  have he : (drain mm mm.priorityFifo memoryPriorityHigh).2.1 = [] := by
    rw [hp]; rfl
  have hdp : (drain mm mm.priorityFifo memoryPriorityHigh).1 = mm := by
    rw [hp]; rfl
  rw [drainPhase_empty_eq mm he, hdp]
  have hmmp : ({ mm with priorityFifo := ([] : List Nat) } : MemoryManager) = mm := by
    ext <;> simp [hp]
  rw [hmmp]
  cases hfo : mm.fifo with
  | nil =>
    refine Prod.ext ?_ (Prod.ext ?_ ?_)
    · simp only [drain]
      ext <;> simp [hfo]
    · simp [drain, hp]
    · simp [drain]
  | cons b r =>
    have hstuck := hf b r hfo
    have hdr : drain mm (b :: r) memoryPriorityLow = (mm, b :: r, []) := by
      unfold drain; rw [hstuck]
    refine Prod.ext ?_ (Prod.ext ?_ ?_)
    · simp only [hdr]
      ext <;> simp [hfo]
    · simp [drain, hp]
    · simp [hdr]

theorem roundtrip_core (mm mm1 : MemoryManager) (n : Nat) (p : Bool)
    (h : StateInv mm) (hb : 0 < mm.base) (hsafe : n + mm.priorityReserve < W)
    (hpe : mm.priorityFifo = [])
    (htry : mm.tryAlloc n p = some mm1) :
    (mm1.Return n).state = { mm with memSinceGC := (mm1.Return n).state.memSinceGC } := by
  obtain ⟨h1, h2, h3, hbW, hres, hu, hfb, hpb⟩ := h
  have havW : mm.available < W := by omega
  have hnW : n < W := by omega
  rw [tryAlloc_nowrap mm n p havW hsafe] at htry
  split_ifs at htry with hc1 hc2
  · -- normal grant path: available decremented by n
    injection htry with heq
    subst heq
    by_cases hupos : 0 < mm.underflow
    · have hav0 : mm.available = 0 := h2 hupos
      have hn0 : n = 0 := by
        rcases hc1 with hh | hh
        · omega
        · have := hh.2; omega
      subst hn0
      rw [Return_pay_eq _ _ ⟨by simpa using hupos, by simp⟩]
      have hw0 : wsub mm.underflow 0 = mm.underflow := wsub_zero hu
      ext <;> simp [hw0]
    · have hun : mm.underflow = 0 := by omega
      have hnle : n ≤ mm.available := by
        rcases hc1 with hh | hh
        · omega
        · exact hh.2
      have hpay : ¬(0 < ({ mm with available := mm.available - n } :
          MemoryManager).underflow ∧
          n ≤ ({ mm with available := mm.available - n } :
          MemoryManager).underflow) := by
        simp [hun]
      rw [Return_add_eq _ _ hpay]
      have hap : ({ mm with available := mm.available - n } :
          MemoryManager).afterPay n =
          { mm with memSinceGC := if wadd mm.memSinceGC n > defaultMemory then 0 else wadd mm.memSinceGC n } := by
        unfold MemoryManager.afterPay
        ext <;> simp [hun]
        rw [wadd_eq (by omega)]
        split_ifs <;> omega
      have hfq : ∀ b rest,
          ({ mm with memSinceGC := if wadd mm.memSinceGC n > defaultMemory then 0 else wadd mm.memSinceGC n } : MemoryManager).fifo = b :: rest →
          ({ mm with memSinceGC := if wadd mm.memSinceGC n > defaultMemory then 0 else wadd mm.memSinceGC n } : MemoryManager).tryAlloc b
            memoryPriorityLow = none := by
        intro b rest hfq
        rw [tryAlloc_congr_none mm (by simp) (by simp) (by simp)]
        exact h3 b rest hpe (by simpa using hfq)
      rw [hap, drainPhase_id _ (by simpa using hpe) hfq]
  · -- oversized borrow path: available zeroed, underflow set
    injection htry with heq
    subst heq
    obtain ⟨havb, hna⟩ := hc2
    have hun : mm.underflow = 0 := by
      rcases Nat.eq_zero_or_pos mm.underflow with h0 | hpos
      · exact h0
      · have := h2 hpos; omega
    have hpay : ¬(0 < ({ mm with available := 0, underflow := n - mm.base } :
        MemoryManager).underflow ∧
        n ≤ ({ mm with available := 0, underflow := n - mm.base } :
        MemoryManager).underflow) := by
      simp only []
      rintro ⟨hpos, hle⟩
      omega
    rw [Return_add_eq _ _ hpay]
    have hX : (if 0 < n - mm.base then wsub n (n - mm.base) else n) = mm.base := by
      by_cases hlt : mm.base < n
      · rw [if_pos (by omega), wsub_eq_of_sub_lt (by omega) (by omega) (by omega)]
        omega
      · rw [if_neg (by omega)]
        omega
    have hX2 : (if mm.base < n then wsub n (n - mm.base) else n) = mm.base := by
      by_cases hlt : mm.base < n
      · rw [if_pos hlt, wsub_eq_of_sub_lt (by omega) (by omega) (by omega)]
        omega
      · rw [if_neg hlt]
        omega
    have hW0 : wadd 0 mm.base = mm.base := by
      unfold wadd
      rw [Nat.zero_add]
      exact Nat.mod_eq_of_lt hbW
    have hap : ({ mm with available := 0, underflow := n - mm.base } :
        MemoryManager).afterPay n =
        { mm with memSinceGC := if wadd mm.memSinceGC n > defaultMemory then 0 else wadd mm.memSinceGC n } := by
      unfold MemoryManager.afterPay
      ext <;> simp [hun, hX, hX2, hW0, havb]
    have hfq : ∀ b rest,
        ({ mm with memSinceGC := if wadd mm.memSinceGC n > defaultMemory then 0 else wadd mm.memSinceGC n } : MemoryManager).fifo = b :: rest →
        ({ mm with memSinceGC := if wadd mm.memSinceGC n > defaultMemory then 0 else wadd mm.memSinceGC n } : MemoryManager).tryAlloc b
          memoryPriorityLow = none := by
      intro b rest hfq
      rw [tryAlloc_congr_none mm (by simp) (by simp) (by simp)]
      exact h3 b rest hpe (by simpa using hfq)
    rw [hap, drainPhase_id _ (by simpa using hpe) hfq]

/-! ### The claims -/

/-- C1, amended: for a representable pool (`available < 2^64`) and a request
whose reserve sum does not overflow (`amount + priorityReserve < 2^64`), the
admission predicate `try` returns true with the single state change
`available ← available − amount` precisely when `priority` is true and
`available ≥ amount`, or `priority` is false and
`available ≥ amount + priorityReserve`; failing that, it returns true with
`available ← 0` and `underflow ← amount − base` precisely when
`available == base` and `amount ≥ available`; in every other case it fails
and changes nothing (modelled by returning `none`).  Without the
no-overflow hypothesis the `uint64` sum wraps and the trichotomy is false
(see the counterexample). -/
theorem c1_try_spec (mm : MemoryManager) (amount : Nat) (priority : Bool)
    (hav : mm.available < W) (hsum : amount + mm.priorityReserve < W) :
    mm.tryAlloc amount priority =
      if (priority = true ∧ amount ≤ mm.available) ∨
          (priority = false ∧ amount + mm.priorityReserve ≤ mm.available) then
        some { mm with available := mm.available - amount }
      else if mm.available = mm.base ∧ mm.available ≤ amount then
        some { mm with available := 0, underflow := amount - mm.base }
      else
        none := by
  rw [tryAlloc_nowrap mm amount priority hav hsum]
  cases priority <;> simp only [ge_iff_le, Bool.true_eq_false, Bool.false_eq_true,
    false_and, and_false, false_or, or_false, true_and, and_true] <;>
    split_ifs <;> first | rfl | omega

/-- Witness for C1 at `create(10, 3)` requesting 4 bytes without priority. -/
theorem c1_try_spec_witness :
    (newMemoryManager 10 3).available < W ∧
    4 + (newMemoryManager 10 3).priorityReserve < W ∧
    (newMemoryManager 10 3).tryAlloc 4 false =
      some { newMemoryManager 10 3 with available := 6 } :=
  ⟨by decide, by decide, by
    have h := c1_try_spec (newMemoryManager 10 3) 4 false (by decide) (by decide)
    rw [h]
    decide⟩

/-- C1 counterexample: at `available = base = 10`, `reserve = 2`,
`amount = 2^64 − 1`, the `uint64` sum `amount + reserve` wraps to 1, so the
source grants through the normal branch leaving `available = 11`, while the
claimed trichotomy predicts the oversized branch with
`underflow = 2^64 − 11`. -/
theorem c1_try_spec_cex :
    (newMemoryManager 10 2).tryAlloc (2 ^ 64 - 1) false ≠
      (if ((false : Bool) = true ∧ 2 ^ 64 - 1 ≤ (newMemoryManager 10 2).available) ∨
          ((false : Bool) = false ∧
            2 ^ 64 - 1 + (newMemoryManager 10 2).priorityReserve ≤
              (newMemoryManager 10 2).available) then
        some { newMemoryManager 10 2 with available := (newMemoryManager 10 2).available - (2 ^ 64 - 1) }
      else if (newMemoryManager 10 2).available = (newMemoryManager 10 2).base ∧
          (newMemoryManager 10 2).available ≤ 2 ^ 64 - 1 then
        some { newMemoryManager 10 2 with available := 0, underflow := 2 ^ 64 - 1 - (newMemoryManager 10 2).base }
      else none) := by decide

/-- C2, amended: in every controller state reachable from `create` with
representable arguments by an overflow-safe sequence of `Request` and
`Return` operations (no `uint64` addition in the execution wraps),
`available ≤ base` holds and a positive `underflow` forces `available = 0`.
A single wrapping request breaks the invariant (see the counterexample). -/
theorem c2_reachable_invariant (mm : MemoryManager) (h : SafeReachable mm) :
    mm.available ≤ mm.base ∧ (0 < mm.underflow → mm.available = 0) := by
  have hi := safeReachable_inv h
  exact ⟨hi.avail_le, hi.uf_avail⟩

/-- Witness for C2 at the freshly constructed controller `create(10, 3)`. -/
theorem c2_reachable_invariant_witness :
    SafeReachable (newMemoryManager 10 3) ∧
    ((newMemoryManager 10 3).available ≤ (newMemoryManager 10 3).base ∧
      (0 < (newMemoryManager 10 3).underflow →
        (newMemoryManager 10 3).available = 0)) :=
  ⟨⟨10, 3, by decide, by decide, [], rfl, rfl⟩,
    c2_reachable_invariant (newMemoryManager 10 3)
      ⟨10, 3, by decide, by decide, [], rfl, rfl⟩⟩

/-- C2 counterexample: from `create(10, 2)` the single call
`Request(2^64 − 1, normal)` is reachable; the wrapped reserve sum is 1, the
request is granted, and `available -= amount` wraps to `11 > base = 10`. -/
theorem c2_reachable_invariant_cex :
    Reachable (run (newMemoryManager 10 2)
      [Op.request (2 ^ 64 - 1) memoryPriorityLow]) ∧
    ¬((run (newMemoryManager 10 2)
        [Op.request (2 ^ 64 - 1) memoryPriorityLow]).available ≤
      (run (newMemoryManager 10 2)
        [Op.request (2 ^ 64 - 1) memoryPriorityLow]).base) :=
  ⟨⟨10, 2, [Op.request (2 ^ 64 - 1) memoryPriorityLow], rfl⟩, by decide⟩

/-- C3: a `Return` whose drain leaves the priority queue nonempty (its head
could not be admitted) releases no normal waiter and leaves the normal
queue exactly as it was, regardless of the amounts involved. -/
theorem c3_priority_blocks_normal (mm : MemoryManager) (n : Nat)
    (h : (mm.Return n).state.priorityFifo ≠ []) :
    (mm.Return n).releasedNormal = [] ∧ (mm.Return n).state.fifo = mm.fifo := by
  by_cases hc : 0 < mm.underflow ∧ n ≤ mm.underflow
  · rw [Return_pay_eq mm n hc]
    exact ⟨rfl, rfl⟩
  · rw [Return_add_eq mm n hc] at h ⊢
    simp only [] at h ⊢
    by_cases he : (drain (mm.afterPay n) (mm.afterPay n).priorityFifo
        memoryPriorityHigh).2.1 = []
    · exfalso
      apply h
      rw [drainPhase_empty_eq _ he]
      set dp1 : MemoryManager :=
        (drain (mm.afterPay n) (mm.afterPay n).priorityFifo memoryPriorityHigh).1
        with hdp1
      have hnf := drain_fields
        ({ dp1 with priorityFifo := ([] : List Nat) } : MemoryManager).fifo
        { dp1 with priorityFifo := ([] : List Nat) } memoryPriorityLow
      simpa using hnf.2.2.2.2
    · rw [drainPhase_stuck_eq _ he]
      have hdf := drain_fields (mm.afterPay n).priorityFifo (mm.afterPay n)
        memoryPriorityHigh
      refine ⟨rfl, ?_⟩
      simp only []
      rw [hdf.2.2.2.1]
      simp [MemoryManager.afterPay]

/-- Witness for C3: priority waiter for 100 stuck, normal waiter untouched. -/
theorem c3_priority_blocks_normal_witness :
    (({ available := 0, base := 10, memSinceGC := 0, priorityReserve := 0, underflow := 0, fifo := [1], priorityFifo := [100] } : MemoryManager).Return 2).state.priorityFifo ≠ [] ∧
    ((({ available := 0, base := 10, memSinceGC := 0, priorityReserve := 0, underflow := 0, fifo := [1], priorityFifo := [100] } : MemoryManager).Return 2).releasedNormal = [] ∧
      (({ available := 0, base := 10, memSinceGC := 0, priorityReserve := 0, underflow := 0, fifo := [1], priorityFifo := [100] } : MemoryManager).Return 2).state.fifo =
        ({ available := 0, base := 10, memSinceGC := 0, priorityReserve := 0, underflow := 0, fifo := [1], priorityFifo := [100] } : MemoryManager).fifo) :=
  ⟨by decide, c3_priority_blocks_normal _ 2 (by decide)⟩

/-- C4, amended: for every state reachable by an overflow-safe execution of
a controller whose base is positive, an immediately granted `Request(n, p)`
with non-overflowing reserve sum followed directly by `Return(n)` leaves
every field except `memSinceGC` as it was before the request.  Both added
hypotheses are forced: with `base = 0` a second oversized borrow overwrites
the outstanding debt, and with a wrapping request the clamp erases the
wrapped `available` (see the counterexample, which exhibits both). -/
theorem c4_roundtrip (mm : MemoryManager) (h : SafeReachable mm)
    (hb : 0 < mm.base) (n : Nat) (p : Bool)
    (hsafe : n + mm.priorityReserve < W)
    (hg : (mm.Request n p).1 = true) :
    ((mm.Request n p).2.Return n).state =
      { mm with memSinceGC := ((mm.Request n p).2.Return n).state.memSinceGC } := by
  have hi := safeReachable_inv h
  obtain ⟨hpe, _, htry⟩ := Request_true_elim mm n p hg
  exact roundtrip_core mm (mm.Request n p).2 n p hi hb hsafe hpe htry

/-- C4 counterexample, both failure modes of the unamended claim.  With
`base = 0` the reachable state after `create(0,0); Request(5, normal)`
carries `underflow = 5`, yet `Request(3, normal)` is granted and `Return(3)`
leaves `underflow = 0`: the debt was overwritten.  With `base = 10`,
`reserve = 2`, the wrapping `Request(2^64 − 1, normal)` reaches
`available = 11 > base`; a granted `Request(1)`/`Return(1)` then ends at the
clamp value 10 instead of restoring 11. -/
theorem c4_roundtrip_cex :
    (Reachable (run (newMemoryManager 0 0) [Op.request 5 memoryPriorityLow]) ∧
      ((run (newMemoryManager 0 0) [Op.request 5 memoryPriorityLow]).Request 3
        memoryPriorityLow).1 = true ∧
      (((run (newMemoryManager 0 0) [Op.request 5 memoryPriorityLow]).Request 3
        memoryPriorityLow).2.Return 3).state.underflow ≠
        (run (newMemoryManager 0 0) [Op.request 5 memoryPriorityLow]).underflow) ∧
    (Reachable (run (newMemoryManager 10 2)
        [Op.request (2 ^ 64 - 1) memoryPriorityLow]) ∧
      0 < (run (newMemoryManager 10 2)
        [Op.request (2 ^ 64 - 1) memoryPriorityLow]).base ∧
      ((run (newMemoryManager 10 2)
        [Op.request (2 ^ 64 - 1) memoryPriorityLow]).Request 1
        memoryPriorityLow).1 = true ∧
      (((run (newMemoryManager 10 2)
        [Op.request (2 ^ 64 - 1) memoryPriorityLow]).Request 1
        memoryPriorityLow).2.Return 1).state.available ≠
        (run (newMemoryManager 10 2)
          [Op.request (2 ^ 64 - 1) memoryPriorityLow]).available) :=
  ⟨⟨⟨0, 0, [Op.request 5 memoryPriorityLow], rfl⟩, by decide, by decide⟩,
    ⟨10, 2, [Op.request (2 ^ 64 - 1) memoryPriorityLow], rfl⟩, by decide,
    by decide, by decide⟩

/-- Witness for C4 at `create(10, 3)` with a granted normal request for 4. -/
theorem c4_roundtrip_witness :
    SafeReachable (newMemoryManager 10 3) ∧ 0 < (newMemoryManager 10 3).base ∧
    4 + (newMemoryManager 10 3).priorityReserve < W ∧
    ((newMemoryManager 10 3).Request 4 memoryPriorityLow).1 = true ∧
    (((newMemoryManager 10 3).Request 4 memoryPriorityLow).2.Return 4).state =
      { newMemoryManager 10 3 with memSinceGC :=
        (((newMemoryManager 10 3).Request 4 memoryPriorityLow).2.Return
          4).state.memSinceGC } :=
  ⟨⟨10, 3, by decide, by decide, [], rfl, rfl⟩, by decide, by decide, by decide,
    c4_roundtrip (newMemoryManager 10 3)
      ⟨10, 3, by decide, by decide, [], rfl, rfl⟩ (by decide) 4
      memoryPriorityLow (by decide) (by decide)⟩

/-- C5: `Request(amount, priority)` is granted immediately, touching neither
FIFO, exactly when the priority queue is empty, priority is set or the
normal queue is empty, and `try` succeeds; in every other case it appends
exactly one waiter carrying `amount` to the back of its own class queue. -/
theorem c5_request_fast_path (mm : MemoryManager) (n : Nat) (p : Bool) :
    ((mm.Request n p).1 = true ↔
      (mm.priorityFifo = [] ∧ (p = true ∨ mm.fifo = []) ∧
        (mm.tryAlloc n p).isSome)) ∧
    ((mm.Request n p).1 = true →
      (mm.Request n p).2.fifo = mm.fifo ∧
      (mm.Request n p).2.priorityFifo = mm.priorityFifo) ∧
    ((mm.Request n p).1 = false →
      (p = true →
        (mm.Request n p).2.priorityFifo = mm.priorityFifo ++ [n] ∧
        (mm.Request n p).2.fifo = mm.fifo) ∧
      (p = false →
        (mm.Request n p).2.fifo = mm.fifo ++ [n] ∧
        (mm.Request n p).2.priorityFifo = mm.priorityFifo)) := by
  by_cases hel : mm.priorityFifo = [] ∧ (p = memoryPriorityHigh ∨ mm.fifo = [])
  · cases htry : mm.tryAlloc n p with
    | some mm1 =>
      rw [Request_grant_eq mm n p mm1 hel htry]
      have hf := tryAlloc_some_fields htry
      refine ⟨?_, ?_, ?_⟩
      · constructor
        · intro _
          exact ⟨hel.1, by simpa [memoryPriorityHigh] using hel.2, by simp [htry]⟩
        · intro _
          rfl
      · intro _
        exact ⟨hf.2.2.2.1, hf.2.2.2.2⟩
      · intro hcon
        simp at hcon
    | none =>
      rw [Request_queue_eq mm n p (Or.inr htry)]
      refine ⟨?_, ?_, ?_⟩
      · simp [htry]
      · intro hcon
        simp at hcon
      · intro _
        cases p with
        | true =>
          refine ⟨fun _ => ?_, fun hps => by simp at hps⟩
          unfold MemoryManager.enqueue
          rw [if_pos rfl]
          exact ⟨rfl, rfl⟩
        | false =>
          refine ⟨fun hps => by simp at hps, fun _ => ?_⟩
          unfold MemoryManager.enqueue
          rw [if_neg (by simp)]
          exact ⟨rfl, rfl⟩
  · rw [Request_queue_eq mm n p (Or.inl hel)]
    refine ⟨?_, ?_, ?_⟩
    · constructor
      · intro hcon
        simp at hcon
      · intro hcon
        exfalso
        refine hel ⟨hcon.1, ?_⟩
        rcases hcon.2.1 with hh | hh
        · exact Or.inl (by simpa [memoryPriorityHigh] using hh)
        · exact Or.inr hh
    · intro hcon
      simp at hcon
    · intro _
      cases p with
      | true =>
        refine ⟨fun _ => ?_, fun hps => by simp at hps⟩
        unfold MemoryManager.enqueue
        rw [if_pos rfl]
        exact ⟨rfl, rfl⟩
      | false =>
        refine ⟨fun hps => by simp at hps, fun _ => ?_⟩
        unfold MemoryManager.enqueue
        rw [if_neg (by simp)]
        exact ⟨rfl, rfl⟩

/-- C6: a `Return(amount)` with positive representable underflow and
`amount ≤ underflow` pays the debt down by exactly `amount` and stops:
`available`, both queues, base and reserve are untouched, no waiter is
released, and only the returned-since-compaction counter is additionally
updated (to its `uint64` value, which may wrap). -/
theorem c6_underflow_paydown (mm : MemoryManager) (n : Nat)
    (h1 : 0 < mm.underflow) (h2 : n ≤ mm.underflow) (h3 : mm.underflow < W) :
    (mm.Return n).state.underflow = mm.underflow - n ∧
    (mm.Return n).state.available = mm.available ∧
    (mm.Return n).state.fifo = mm.fifo ∧
    (mm.Return n).state.priorityFifo = mm.priorityFifo ∧
    (mm.Return n).state.base = mm.base ∧
    (mm.Return n).state.priorityReserve = mm.priorityReserve ∧
    (mm.Return n).releasedPriority = [] ∧
    (mm.Return n).releasedNormal = [] ∧
    (mm.Return n).state.memSinceGC =
      (if defaultMemory < wadd mm.memSinceGC n then 0
        else wadd mm.memSinceGC n) := by
  rw [Return_pay_eq mm n ⟨h1, h2⟩]
  exact ⟨wsub_eq h3 h2, rfl, rfl, rfl, rfl, rfl, rfl, rfl, rfl⟩

/-- Witness for C6: underflow 7 paid down by 3 with nothing else changing. -/
theorem c6_underflow_paydown_witness :
    0 < ({ available := 0, base := 10, memSinceGC := 0, priorityReserve := 2, underflow := 7, fifo := [4], priorityFifo := [9] } : MemoryManager).underflow ∧
    3 ≤ ({ available := 0, base := 10, memSinceGC := 0, priorityReserve := 2, underflow := 7, fifo := [4], priorityFifo := [9] } : MemoryManager).underflow ∧
    ({ available := 0, base := 10, memSinceGC := 0, priorityReserve := 2, underflow := 7, fifo := [4], priorityFifo := [9] } : MemoryManager).underflow < W ∧
    (({ available := 0, base := 10, memSinceGC := 0, priorityReserve := 2, underflow := 7, fifo := [4], priorityFifo := [9] } : MemoryManager).Return 3).state.underflow = 4 :=
  ⟨by decide, by decide, by decide,
    by
      have h := c6_underflow_paydown { available := 0, base := 10, memSinceGC := 0, priorityReserve := 2, underflow := 7, fifo := [4], priorityFifo := [9] } 3 (by decide) (by decide) (by decide)
      rw [h.1]
      decide⟩

/-- C7, amended: when, after underflow paydown, adding the returned amount
would push `available` past `base` and that sum does not overflow `uint64`
(`available + (amount − underflow) < 2^64`, with representable inputs),
`Return` clamps `available` to exactly `base`, reports the critical
consistency violation (modelled by the `critical` flag; the reporter does
not abort), and still drains the wait queues from the clamped state.
Without the no-overflow hypothesis the `uint64` sum wraps and neither the
report nor the clamp occurs (see the counterexample). -/
theorem c7_over_return_clamp (mm : MemoryManager) (n : Nat)
    (h1 : ¬(0 < mm.underflow ∧ n ≤ mm.underflow))
    (h2 : mm.base < mm.available + (n - mm.underflow))
    (h3 : mm.available + (n - mm.underflow) < W)
    (h5 : n < W) :
    (mm.Return n).critical = true ∧
    (mm.afterPay n).available = mm.base ∧
    (mm.Return n).state = (drainPhase (mm.afterPay n)).1 ∧
    (mm.Return n).releasedPriority = (drainPhase (mm.afterPay n)).2.1 ∧
    (mm.Return n).releasedNormal = (drainPhase (mm.afterPay n)).2.2 := by
  rw [Return_add_eq mm n h1]
  have hX : (if 0 < mm.underflow then wsub n mm.underflow else n) =
      n - mm.underflow := by
    by_cases hpos : 0 < mm.underflow
    · rw [if_pos hpos]
      have hlt : mm.underflow < n := by
        by_contra hge
        exact h1 ⟨hpos, by omega⟩
      exact wsub_eq h5 (by omega)
    · rw [if_neg hpos]
      omega
  have hWadd : wadd mm.available (n - mm.underflow) =
      mm.available + (n - mm.underflow) := wadd_eq h3
  refine ⟨by simp [hX, hWadd, h2], ?_, rfl, rfl, rfl⟩
  simp only [MemoryManager.afterPay]
  simp [hX, hWadd, h2]

/-- Witness for C7: returning 1 to an untouched full pool over-returns. -/
theorem c7_over_return_clamp_witness :
    ¬(0 < (newMemoryManager 10 0).underflow ∧
      1 ≤ (newMemoryManager 10 0).underflow) ∧
    (newMemoryManager 10 0).base <
      (newMemoryManager 10 0).available + (1 - (newMemoryManager 10 0).underflow) ∧
    (newMemoryManager 10 0).available + (1 - (newMemoryManager 10 0).underflow) < W ∧
    ((newMemoryManager 10 0).Return 1).critical = true :=
  ⟨by decide, by decide, by decide,
    (c7_over_return_clamp (newMemoryManager 10 0) 1 (by decide) (by decide)
      (by decide) (by decide)).1⟩

/-- C7 counterexample: on the untouched full pool `create(10, 0)`, returning
`2^64 − 5` makes the mathematical sum exceed `base`, but Go's
`available += amount` wraps to 5, so no critical report and no clamp occur. -/
theorem c7_over_return_clamp_cex :
    ¬(0 < (newMemoryManager 10 0).underflow ∧
      (2 ^ 64 - 5 : Nat) ≤ (newMemoryManager 10 0).underflow) ∧
    (newMemoryManager 10 0).base <
      (newMemoryManager 10 0).available +
        ((2 ^ 64 - 5) - (newMemoryManager 10 0).underflow) ∧
    ((newMemoryManager 10 0).Return (2 ^ 64 - 5)).critical = false ∧
    ((newMemoryManager 10 0).Return (2 ^ 64 - 5)).state.available = 5 := by
  decide

/-- C8, amended: when the counter bump does not overflow `uint64`
(`memSinceGC + amount < 2^64`), every `Return(amount)` bumps the
returned-since-compaction counter by the full amount before any underflow
paydown, runs the GC hook exactly when the bumped counter strictly exceeds
`defaultMemory` and then resets it to zero — also on a `Return` fully
consumed by underflow paydown.  With a wrapping bump the counter rises by
less than the full amount and the hook can fail to fire although the
mathematical sum exceeds the threshold (see the counterexample). -/
theorem c8_gc_counter (mm : MemoryManager) (n : Nat)
    (hsum : mm.memSinceGC + n < W) :
    (mm.Return n).gcTriggered = decide (defaultMemory < mm.memSinceGC + n) ∧
    (mm.Return n).state.memSinceGC =
      (if defaultMemory < mm.memSinceGC + n then 0 else mm.memSinceGC + n) := by
  have hw : wadd mm.memSinceGC n = mm.memSinceGC + n := wadd_eq hsum
  by_cases hc : 0 < mm.underflow ∧ n ≤ mm.underflow
  · rw [Return_pay_eq mm n hc]
    refine ⟨?_, ?_⟩ <;> simp [hw]
  · rw [Return_add_eq mm n hc]
    refine ⟨by simp [hw], ?_⟩
    have h := (drainPhase_fields (mm.afterPay n)).2.2
    simp only [] at h ⊢
    rw [h]
    simp [MemoryManager.afterPay, hw]

/-- Witness for C8: a small return bumps the counter without triggering GC. -/
theorem c8_gc_counter_witness :
    (newMemoryManager 5 0).memSinceGC + 7 < W ∧
    ((newMemoryManager 5 0).Return 7).gcTriggered =
      decide (defaultMemory < (newMemoryManager 5 0).memSinceGC + 7) ∧
    ((newMemoryManager 5 0).Return 7).state.memSinceGC =
      (if defaultMemory < (newMemoryManager 5 0).memSinceGC + 7 then 0
        else (newMemoryManager 5 0).memSinceGC + 7) :=
  ⟨by decide, c8_gc_counter (newMemoryManager 5 0) 7 (by decide)⟩

/-- C8 counterexample: in the reachable state with `memSinceGC = 10`,
`Return(2^64 − 5)` wraps the counter to 5 and fires no GC, although the
mathematical bump far exceeds the threshold. -/
theorem c8_gc_counter_cex :
    Reachable (run (newMemoryManager 20 0)
      [Op.request 10 memoryPriorityLow, Op.ret 10]) ∧
    (run (newMemoryManager 20 0)
      [Op.request 10 memoryPriorityLow, Op.ret 10]).memSinceGC = 10 ∧
    defaultMemory < (run (newMemoryManager 20 0)
      [Op.request 10 memoryPriorityLow, Op.ret 10]).memSinceGC + (2 ^ 64 - 5) ∧
    ((run (newMemoryManager 20 0)
      [Op.request 10 memoryPriorityLow, Op.ret 10]).Return
        (2 ^ 64 - 5)).gcTriggered = false ∧
    ((run (newMemoryManager 20 0)
      [Op.request 10 memoryPriorityLow, Op.ret 10]).Return
        (2 ^ 64 - 5)).state.memSinceGC = 5 :=
  ⟨⟨20, 0, [Op.request 10 memoryPriorityLow, Op.ret 10], rfl⟩,
    by decide, by decide, by decide, by decide⟩

/-- C9, amended: with the pool fully idle, both queues empty and a
non-overflowing reserve sum (`base + priorityReserve < 2^64`), a normal
request for exactly `base` bytes is granted through the oversized-borrow
path even when `priorityReserve > 0`, leaving `available = 0` and
`underflow = 0`.  When `base + priorityReserve` wraps, the request is
instead admitted through the normal grant path and `underflow` is left
unchanged (see the counterexample). -/
theorem c9_full_pool_normal_oversize (mm : MemoryManager)
    (hav : mm.available = mm.base) (hf : mm.fifo = [])
    (hpf : mm.priorityFifo = []) (hres : 0 < mm.priorityReserve)
    (hsum : mm.base + mm.priorityReserve < W) :
    mm.Request mm.base memoryPriorityLow =
      (true, { mm with available := 0, underflow := 0 }) := by
  have htry : mm.tryAlloc mm.base memoryPriorityLow =
      some { mm with available := 0, underflow := 0 } := by
    unfold MemoryManager.tryAlloc
    rw [wadd_eq hsum]
    rw [if_neg (by simp only [memoryPriorityLow, ge_iff_le, Bool.false_eq_true,
      false_and, or_false, not_le]; omega), if_pos ⟨hav, by omega⟩]
    rw [wsub_self]
  rw [Request_grant_eq mm mm.base memoryPriorityLow _ ⟨hpf, Or.inr hf⟩ htry]

/-- Witness for C9 at `create(10, 3)` requesting all 10 bytes. -/
theorem c9_full_pool_normal_oversize_witness :
    (newMemoryManager 10 3).available = (newMemoryManager 10 3).base ∧
    0 < (newMemoryManager 10 3).priorityReserve ∧
    (newMemoryManager 10 3).base + (newMemoryManager 10 3).priorityReserve < W ∧
    (newMemoryManager 10 3).Request (newMemoryManager 10 3).base
        memoryPriorityLow =
      (true, { newMemoryManager 10 3 with available := 0, underflow := 0 }) :=
  ⟨rfl, by decide, by decide,
    c9_full_pool_normal_oversize (newMemoryManager 10 3) rfl rfl rfl
      (by decide) (by decide)⟩

/-- C9 counterexample: with `base = reserve = 2^63` (their `uint64` sum
wraps to 0) and an outstanding underflow of 1, the idle-pool normal request
for exactly `base` bytes is granted through the **normal** grant path, so
`underflow` stays 1 instead of the claimed 0. -/
theorem c9_full_pool_normal_oversize_cex :
    ({ available := 2 ^ 63, base := 2 ^ 63, memSinceGC := 0, priorityReserve := 2 ^ 63, underflow := 1, fifo := [], priorityFifo := [] } : MemoryManager).available = ({ available := 2 ^ 63, base := 2 ^ 63, memSinceGC := 0, priorityReserve := 2 ^ 63, underflow := 1, fifo := [], priorityFifo := [] } : MemoryManager).base ∧
    0 < ({ available := 2 ^ 63, base := 2 ^ 63, memSinceGC := 0, priorityReserve := 2 ^ 63, underflow := 1, fifo := [], priorityFifo := [] } : MemoryManager).priorityReserve ∧
    (({ available := 2 ^ 63, base := 2 ^ 63, memSinceGC := 0, priorityReserve := 2 ^ 63, underflow := 1, fifo := [], priorityFifo := [] } : MemoryManager).Request ({ available := 2 ^ 63, base := 2 ^ 63, memSinceGC := 0, priorityReserve := 2 ^ 63, underflow := 1, fifo := [], priorityFifo := [] } : MemoryManager).base memoryPriorityLow).1 = true ∧
    (({ available := 2 ^ 63, base := 2 ^ 63, memSinceGC := 0, priorityReserve := 2 ^ 63, underflow := 1, fifo := [], priorityFifo := [] } : MemoryManager).Request ({ available := 2 ^ 63, base := 2 ^ 63, memSinceGC := 0, priorityReserve := 2 ^ 63, underflow := 1, fifo := [], priorityFifo := [] } : MemoryManager).base memoryPriorityLow).2.underflow ≠ 0 := by
  decide

/-- C10, amended: the constructor performs no validation, so
`priorityReserve > base` is possible; in every state reachable by an
overflow-safe execution of such a controller, no normal request whose
reserve sum does not overflow (`amount + priorityReserve < 2^64`) can pass
the normal grant path, and a successful normal `try` must be the oversized
borrow taken with the pool fully idle.  A wrapping request defeats both
parts (see the counterexample). -/
theorem c10_reserve_exceeds_base (b r : Nat) (hbr : b < r) (mm : MemoryManager)
    (h : SafeReachableFrom b r mm) (n : Nat)
    (hn : n + mm.priorityReserve < W) :
    (newMemoryManager b r).base = b ∧
    (newMemoryManager b r).priorityReserve = r ∧
    ¬(mm.available ≥ n + mm.priorityReserve) ∧
    (∀ mm1, mm.tryAlloc n memoryPriorityLow = some mm1 →
      mm.available = mm.base ∧ mm.base ≤ n ∧
      mm1.available = 0 ∧ mm1.underflow = n - mm.base) := by
  obtain ⟨hi, hb, hr⟩ := safeReachableFrom_props h
  obtain ⟨h1, _, _, hbW, hresW, _, _, _⟩ := hi
  refine ⟨rfl, rfl, by omega, ?_⟩
  intro mm1 hsome
  rw [tryAlloc_nowrap mm n memoryPriorityLow (by omega) hn] at hsome
  split_ifs at hsome with hc1 hc2
  · exfalso
    rcases hc1 with hc | hc
    · omega
    · simp [memoryPriorityLow] at hc
  · injection hsome with heq
    subst heq
    exact ⟨hc2.1, by omega, rfl, rfl⟩

/-- Witness for C10: a controller created with base 5 and reserve 7. -/
theorem c10_reserve_exceeds_base_witness :
    5 < 7 ∧ SafeReachableFrom 5 7 (newMemoryManager 5 7) ∧
    3 + (newMemoryManager 5 7).priorityReserve < W ∧
    ¬((newMemoryManager 5 7).available ≥ 3 + (newMemoryManager 5 7).priorityReserve) :=
  ⟨by decide, ⟨by decide, by decide, [], rfl, rfl⟩, by decide,
    (c10_reserve_exceeds_base 5 7 (by decide) (newMemoryManager 5 7)
      ⟨by decide, by decide, [], rfl, rfl⟩ 3 (by decide)).2.2.1⟩

/-- C10 counterexample: on the freshly created `create(5, 7)` controller
the normal request for `2^64 − 2` bytes has wrapped reserve sum 5, so it is
admitted **through the normal grant path** (the oversized branch would zero
`available`; here `available` wraps to 7 instead). -/
theorem c10_reserve_exceeds_base_cex :
    5 < 7 ∧ ReachableFrom 5 7 (newMemoryManager 5 7) ∧
    (newMemoryManager 5 7).tryAlloc (2 ^ 64 - 2) memoryPriorityLow =
      some { newMemoryManager 5 7 with available := 7 } ∧
    ({ newMemoryManager 5 7 with available := 7 } : MemoryManager).available ≠ 0 :=
  ⟨by decide, ⟨[], rfl⟩, by decide, by decide⟩
